import Mathlib

/-!
Verification development for the nesting engine in `nfp_function.py`.

Coordinates are modelled as rationals (the Python code uses floats; every
claim under study is structural, not about rounding).  Functions that live
in modules outside `src/` (the geometry helpers `tools/nfp_utls`, the
clipping library `pyclipper`, and Python's `random`) are supplied as
explicit oracle parameters or modelled from the spec, as marked on each
definition.  Python exceptions are modelled with `Except Unit` or `Option`
result types; `none`/`.error` marks a raised exception where noted.
-/

structure Pt where
  x : ℚ
  y : ℚ
deriving DecidableEq, Repr

/-- Cross-product term of the shoelace formula. -/
def cross2 (p q : Pt) : ℚ := p.x * q.y - q.x * p.y

/-- Sum of shoelace terms over consecutive pairs of the (open) chain. -/
def linkSum : List Pt → ℚ
  | [] => 0
  | [_] => 0
  | p :: q :: rest => cross2 p q + linkSum (q :: rest)

/-- Modelled from the spec: `nfp_utls.polygon_area` is not under `src/`.
The spec defines it as the shoelace formula
`A = (1/2) * sum (x_i * y_(i+1) - x_(i+1) * y_i)`, positive for
counter-clockwise rings. -/
def polygon_area (l : List Pt) : ℚ :=
  match l.getLast?, l.head? with
  | some lst, some hd => (linkSum l + cross2 lst hd) / 2
  | _, _ => 0

/-- Axis-aligned bounds of a point list: (xmin, ymin, width, height). -/
def boundsPts : List Pt → ℚ × ℚ × ℚ × ℚ
  | [] => (0, 0, 0, 0)
  | p :: rest =>
    let xmax := rest.foldl (fun m q => max m q.x) p.x
    let xmin := rest.foldl (fun m q => min m q.x) p.x
    let ymax := rest.foldl (fun m q => max m q.y) p.y
    let ymin := rest.foldl (fun m q => min m q.y) p.y
    (xmin, ymin, xmax - xmin, ymax - ymin)

structure RotPoly where
  points : List Pt
  x : ℚ
  y : ℚ
  width : ℚ
  height : ℚ
deriving DecidableEq, Repr

/-- Modelled from the spec: `nfp_utls.rotate_polygon` is not under `src/`.
The spec describes it as rigid rotation about the origin by an angle in
degrees, returning the rotated ring together with its bounds.  The cosine
and sine of the angle are supplied by the oracle `trig` (the embedding is
over rationals, so trigonometric values for the angles of interest —
multiples of 90 degrees — are exact). -/
def rotate_polygon (trig : ℚ → ℚ × ℚ) (pts : List Pt) (angle : ℚ) : RotPoly :=
  let c := (trig angle).1
  let s := (trig angle).2
  let newpts := pts.map (fun p => Pt.mk (p.x * c - p.y * s) (p.x * s + p.y * c))
  let b := boundsPts newpts
  { points := newpts, x := b.1, y := b.2.1, width := b.2.2.1, height := b.2.2.2 }

/-- Exact trig oracle for the multiples of 90 degrees used by concrete runs. -/
def trig90 (a : ℚ) : ℚ × ℚ :=
  if a = 0 then (1, 0)
  else if a = 90 then (0, 1)
  else if a = 180 then (-1, 0)
  else if a = 270 then (0, -1)
  else (1, 0)

/-- Negation of a vertex, exactly as `minkowski_difference` builds `Bc`. -/
def negPt (p : Pt) : Pt := Pt.mk (p.x * (-1)) (p.y * (-1))

/-- The fold of `minkowski_difference` that keeps the summand polygon with
the algebraically smallest signed area (first one wins on ties, matching
the strict `largest_area > sarea` comparison in the source). -/
def pickSmaller (best q : List Pt) : List Pt :=
  if polygon_area q < polygon_area best then q else best

/-- Embeds `minkowski_difference(A, B)` from `nfp_function.py` (lines
565-592).  `mink` is the external `pyclipper.MinkowskiSum`.  `none` models
a raised exception: when the clipper solution is empty, `clipper_nfp`
stays `None` and `len(clipper_nfp)` raises `TypeError`; when `Bc` is empty
but `clipper_nfp` is not, `Bc[0]` raises `IndexError`. -/
def minkowski_difference (mink : List Pt → List Pt → List (List Pt))
    (Apts Bpts : List Pt) : Option (List (List Pt)) :=
  let Ac := Apts
  let Bc := Bpts.map negPt
  let solution := mink Ac Bc
  match solution with
  | [] => none
  | s0 :: srest =>
    let clipper_nfp := srest.foldl pickSmaller s0
    match clipper_nfp with
    | [] => some [[]]
    | _ =>
      match Bc with
      | [] => none
      | bc0 :: _ =>
        some [clipper_nfp.map
          (fun p => Pt.mk (p.x + bc0.x * (-1)) (p.y + bc0.y * (-1)))]

structure NfpKey where
  A : String
  B : String
  inside : Bool
  A_rotation : ℚ
  B_rotation : ℚ
deriving DecidableEq, Repr

/-- A polygon record as passed to `process_nfp` (the `'points'` entry of
the shape dict is all the function reads). -/
structure NPoly where
  points : List Pt
deriving DecidableEq, Repr

/-- Oracles for the geometry helpers living outside `src/`
(`tools/nfp_utls` and `pyclipper`); modelled from the spec where noted on
the claims that use them.  `pip` is `point_in_polygon` with its
three-valued result (`none` = on an edge). -/
structure GeomOracles where
  mink : List Pt → List Pt → List (List Pt)
  pip : Pt → List Pt → Option Bool
  trig : ℚ → ℚ × ℚ
  isRect : List Pt → ℚ → Bool
  nfpRect : List Pt → List Pt → Option (List (List Pt))
  nfpPoly : List Pt → List Pt → Bool → Bool → Option (List (List Pt))

/-- The winding pass of `process_nfp` over the rings after the first
(source lines 307-314): reverse positive-area rings, then reverse holes
lying inside ring 0 whose area is negative.  `r0` is ring 0 after its own
normalisation; `.error` models the `IndexError` of `nfp[i][0]` on an empty
ring. -/
def windRest (pip : Pt → List Pt → Option Bool) (r0 : List Pt) :
    List (List Pt) → Except Unit (List (List Pt))
  | [] => .ok []
  | r :: rest =>
    let r1 := if polygon_area r > 0 then r.reverse else r
    match r1.head? with
    | none => .error ()
    | some v =>
      let r2 := if pip v r0 = some true ∧ polygon_area r1 < 0 then r1.reverse else r1
      match windRest pip r0 rest with
      | .error e => .error e
      | .ok tail => .ok (r2 :: tail)

/-- Winding normalisation of the whole outer-NFP list (loop at source
lines 307-314, including the in-place update of `nfp[0]` that the later
iterations observe). -/
def windingFix (pip : Pt → List Pt → Option Bool) :
    List (List Pt) → Except Unit (List (List Pt))
  | [] => .ok []
  | r0 :: rest =>
    let r0n := if polygon_area r0 > 0 then r0.reverse else r0
    match windRest pip r0n rest with
    | .error e => .error e
    | .ok tail => .ok (r0n :: tail)

/-- Post-processing of the outer-NFP branch of `process_nfp` (source lines
279-320): the `nfp is None or len(nfp) == 0` guard, the area sanity loop
(the early `nfp.pop(i); return None` is folded into the `any`), the
redundant emptiness re-check, and the winding pass. -/
def outerPost (pip : Pt → List Pt → Option Bool) (searchEdges : Bool)
    (key : NfpKey) (Apts : List Pt) (nfpO : Option (List (List Pt))) :
    Except Unit (Option (NfpKey × Option (List (List Pt)))) :=
  match nfpO with
  | none => .ok none
  | some [] => .ok none
  | some nfp =>
    if nfp.enum.any (fun ir =>
        (!searchEdges || ir.1 == 0) &&
        decide (|polygon_area ir.2| < |polygon_area Apts|)) then .ok none
    else
      match windingFix pip nfp with
      | .error e => .error e
      | .ok fixed => .ok (some (key, some fixed))

/-- Embeds `Nester.process_nfp` (source lines 234-320).  The result value
is `.ok none` when the source returns `None`, `.ok (some (key, value))`
for the final `return {'key': ..., 'value': nfp}` (whose `value` can
itself be `None` on the inner path), and `.error` for a raised exception.
`searchEdges` and `useHoles` are `config['exploreConcave']` and
`config['useHoles']`. -/
def process_nfp (g : GeomOracles) (searchEdges useHoles : Bool)
    (pair : Option (NfpKey × NPoly × NPoly)) :
    Except Unit (Option (NfpKey × Option (List (List Pt)))) :=
  match pair with
  | none => .ok none
  | some (key, pA, pB) =>
    let Apts := (rotate_polygon g.trig pA.points key.A_rotation).points
    let Bpts := (rotate_polygon g.trig pB.points key.B_rotation).points
    if key.inside then
      let nfp0 : Option (List (List Pt)) :=
        if g.isRect Apts (1 / 10000) then g.nfpRect Apts Bpts
        else g.nfpPoly Apts Bpts true searchEdges
      let nfp1 : Option (List (List Pt)) :=
        match nfp0 with
        | some l =>
          if l = [] then some l
          else some (l.map (fun r => if polygon_area r > 0 then r.reverse else r))
        | none => none
      .ok (some (key, nfp1))
    else
      if searchEdges then
        outerPost g.pip searchEdges key Apts (g.nfpPoly Apts Bpts false searchEdges)
      else
        match minkowski_difference g.mink Apts Bpts with
        | none => .error ()
        | some l => outerPost g.pip searchEdges key Apts (some l)

/-- Embeds `Nester.clean_polygon` (source lines 359-376).  `simplifyF`,
`cleanF` and `areaF` are the external `pyclipper.SimplifyPolygon`,
`pyclipper.CleanPolygon` and `pyclipper.Area`.  The initial
`biggest_area = pyclipper.Area(biggest)` is signed (no `abs`), exactly as
in the source. -/
def clean_polygon (simplifyF : List Pt → List (List Pt))
    (cleanF : List Pt → List Pt) (areaF : List Pt → ℚ)
    (poly : List Pt) : Option (List Pt) :=
  let simple := simplifyF poly
  match simple with
  | [] => none
  | b0 :: brest =>
    let biggest := (brest.foldl
      (fun acc s => if |areaF s| > acc.2 then (s, |areaF s|) else acc)
      (b0, areaF b0)).1
    match cleanF biggest with
    | [] => none
    | c0 :: crest => some (c0 :: crest)

structure Shape where
  p_id : String
  points : List Pt
  area : ℚ
deriving DecidableEq, Repr

/-- One iteration of the `add_objects` loop (source lines 58-72): build
the shape record from the cleaned points, reverse the ring when its signed
area is positive, store the absolute area.  (`p_id` is the loop-invariant
`str(p_id)` of the source, which never increments `p_id` from 0.) -/
def ingest_object (pts : List Pt) : Shape :=
  let area := polygon_area pts
  let pts1 := if area > 0 then pts.reverse else pts
  { p_id := "0", points := pts1, area := |area| }

/-- Embeds `Nester.add_objects` (source lines 49-75) acting on the stored
shape list; returns the updated list together with the accumulated
`total_area`.  `clean` is `self.clean_polygon` partially applied to its
library oracles; `none` models the `TypeError` raised when `clean_polygon`
returns `None` and the source iterates over it. -/
def add_objects (clean : List Pt → Option (List Pt))
    (objects : List (List Pt)) (shapes0 : List Shape) :
    Option (List Shape × ℚ) :=
  objects.foldl
    (fun acc obj =>
      match acc with
      | none => none
      | some (shp, total) =>
        match clean obj with
        | none => none
        | some pts =>
          let s := ingest_object pts
          some (shp ++ [s], total + s.area))
    (some (shapes0, 0))

structure Container where
  points : List Pt
  p_id : String
  width : ℚ
  height : ℚ
deriving DecidableEq, Repr

/-- The bounding-box scan of `add_container` (source lines 86-99),
including its `elif` structure: a point that raises the max cannot lower
the min in the same iteration. -/
def binBounds (p0 : Pt) (pts : List Pt) : ℚ × ℚ × ℚ × ℚ :=
  pts.foldl
    (fun acc p =>
      let xb := if p.x > acc.1 then (p.x, acc.2.1)
                else if p.x < acc.2.1 then (acc.1, p.x)
                else (acc.1, acc.2.1)
      let yb := if p.y > acc.2.2.1 then (p.y, acc.2.2.2)
                else if p.y < acc.2.2.2 then (acc.2.2.1, p.y)
                else (acc.2.2.1, acc.2.2.2)
      (xb.1, xb.2, yb.1, yb.2))
    (p0.x, p0.x, p0.y, p0.y)

/-- Embeds `Nester.add_container` (source lines 77-104).  The cleaned
points are stored verbatim — there is no winding normalisation here.
`none` models the exceptions raised when `clean_polygon` returns `None`
(iteration over `None`) or returns an empty list (`points[0]`). -/
def add_container (clean : List Pt → Option (List Pt))
    (container : List Pt) : Option Container :=
  match clean container with
  | none => none
  | some pts =>
    match pts with
    | [] => none
    | p0 :: _ =>
      let b := binBounds p0 pts
      some { points := pts, p_id := "-1",
             width := b.1 - b.2.1, height := b.2.2.1 - b.2.2.2 }

/-- The NFP cache: a Python dict keyed by the canonical JSON encoding of
an `NfpKey`; modelled as an association list with dict-update semantics
(insertion keeps the position of an existing key, as CPython does).
`V` abstracts the stored NFP value. -/
def clookup {V : Type} : List (NfpKey × V) → NfpKey → Option V
  | [], _ => none
  | kv :: rest, k => if kv.1 = k then some kv.2 else clookup rest k

def cinsert {V : Type} : List (NfpKey × V) → NfpKey → V → List (NfpKey × V)
  | [], k, v => [(k, v)]
  | kv :: rest, k, v =>
    if kv.1 = k then (kv.1, v) :: rest else kv :: cinsert rest k v

/-- The container/part key built at source lines 186-192. -/
def innerCacheKey (partId : String) (rot : ℚ) : NfpKey :=
  { A := "-1", B := partId, inside := true, A_rotation := 0, B_rotation := rot }

/-- The part/part key built at source lines 204-210. -/
def outerCacheKey (placedId : String) (placedRot : ℚ)
    (partId : String) (partRot : ℚ) : NfpKey :=
  { A := placedId, B := partId, inside := false,
    A_rotation := placedRot, B_rotation := partRot }

/-- The keys examined while processing one part of the placement (the
body of the `i` loop of `find_fitness`): its inner key against the
container, then one outer key per previously placed part. -/
def keysFor (placed : List (String × ℚ)) (cur : String × ℚ) : List NfpKey :=
  innerCacheKey cur.1 cur.2 ::
    placed.map (fun pl => outerCacheKey pl.1 pl.2 cur.1 cur.2)

/-- All cache keys referenced by a genome: parts are given as
(id, rotation) pairs in placement order. -/
def refKeys : List (String × ℚ) → List (String × ℚ) → List NfpKey
  | _, [] => []
  | placed, cur :: rest =>
    keysFor placed cur ++ refKeys (placed ++ [cur]) rest

/-- One key test of the `find_fitness` loops (source lines 194-199 and
211-216): a miss is queued for computation, a hit is copied into the
fresh per-batch cache. -/
def buildStep {V : Type} (oldC : List (NfpKey × V))
    (acc : List NfpKey × List (NfpKey × V)) (k : NfpKey) :
    List NfpKey × List (NfpKey × V) :=
  match clookup oldC k with
  | none => (acc.1 ++ [k], acc.2)
  | some v => (acc.1, cinsert acc.2 k v)

/-- The full double loop of `find_fitness` (source lines 183-216),
threading the queued misses (`nfp_pairs`, by key) and the fresh cache
(`new_cache`). -/
def buildLoop {V : Type} (oldC : List (NfpKey × V)) :
    List (String × ℚ) → (List NfpKey × List (NfpKey × V)) →
    List (String × ℚ) → List NfpKey × List (NfpKey × V)
  | _, acc, [] => acc
  | placed, acc, cur :: rest =>
    buildLoop oldC (placed ++ [cur])
      ((keysFor placed cur).foldl (buildStep oldC) acc) rest

/-- The cache as it stands after `find_fitness` has run `process_nfp` on
every queued pair and `generate_nfp` has stored the non-`None` results
(source lines 218-219 and 328-333).  `oracle` abstracts `process_nfp` on
the pair with the given key (`none` = the source returned `None`, which
`generate_nfp` skips). -/
def find_fitness_cache {V : Type} (oracle : NfpKey → Option V)
    (oldC : List (NfpKey × V)) (parts : List (String × ℚ)) :
    List (NfpKey × V) :=
  let built := buildLoop oldC [] ([], []) parts
  built.1.foldl
    (fun c k => match oracle k with | some v => cinsert c k v | none => c)
    built.2

/-- A placement entry of a genome: the `[str(i), shape]` pair of the
source, with the shape reduced to its point list (all `mate`, `mutate`
and `random_angle` read of it). -/
abbrev GPart := String × List Pt

/-- A genome dict: `placement`, `rotation`, and the `fitness` key that is
only present (`some`) after evaluation. -/
structure Genome where
  placement : List GPart
  rotation : List ℚ
  fitness : Option ℚ
deriving DecidableEq, Repr

/-- The sort key `lambda a: a['fitness']` of `generation`; reading a
missing key would raise, so callers are used only under the hypothesis
that every genome carries a fitness. -/
def fitKey (g : Genome) : ℚ := g.fitness.getD 0

/-- The in-place index swap `data[i], data[j] = data[j], data[i]` used by
`shuffle_array` and `mutate`. -/
def swapIdx {α : Type} (l : List α) (i j : ℕ) : List α :=
  match l[i]?, l[j]? with
  | some a, some b => (l.set i b).set j a
  | _, _ => l

/-- The Fisher-Yates loop of `shuffle_array` (source lines 462-466):
`for i in range(len(data)-1, 0, -1): j = randint(0, i); swap(i, j)`.
`rnd i` supplies the draw `j` for index `i`. -/
def shuffleGo {α : Type} (rnd : ℕ → ℕ) : ℕ → List α → List α
  | 0, data => data
  | i + 1, data => shuffleGo rnd i (swapIdx data (i + 1) (rnd (i + 1)))

def shuffle_array {α : Type} (rnd : ℕ → ℕ) (data : List α) : List α :=
  shuffleGo rnd (data.length - 1) data

/-- The fit test of the `for angle in angle_list` loop of `random_angle`
(source lines 471-477). -/
def fitsAngle (trig : ℚ → ℚ × ℚ) (pts : List Pt) (binW binH : ℚ)
    (angle : ℚ) : Bool :=
  let rp := rotate_polygon trig pts angle
  decide (rp.width < binW) && decide (rp.height < binH)

/-- The `angle_list` built by the first loop of `random_angle`. -/
def angleCandidates (rotations : ℕ) : List ℚ :=
  (List.range rotations).map (fun i => (i : ℚ) * (360 / (rotations : ℚ)))

/-- Embeds `genetic_algorithm.random_angle` (source lines 451-480).  Note
the source's `return angle_list[i]`: `i` is the stale loop variable of
the first loop (`rotations - 1`), not the index of the fitting angle, so
a successful fit test returns the LAST element of the shuffled list. -/
def random_angle (trig : ℚ → ℚ × ℚ) (rnd : ℕ → ℕ) (rotations : ℕ)
    (pts : List Pt) (binW binH : ℚ) : ℚ :=
  let angle_list := shuffle_array rnd (angleCandidates rotations)
  match angle_list.find? (fitsAngle trig pts binW binH) with
  | some _ => angle_list.getD (rotations - 1) 0
  | none => 0

/-- The order-mutation loop of `mutate` (source lines 487-493): for each
position, when its draw fires and a right neighbour exists, swap with it
(sequentially, on the current list). -/
def mutateSwapLoop {α : Type} (draws : ℕ → ℚ) (p : ℚ) (pl : List α) :
    List α :=
  (List.range pl.length).foldl
    (fun cur i =>
      if draws i < p then
        (if i + 1 < cur.length then swapIdx cur i (i + 1) else cur)
      else cur)
    pl

/-- Embeds `genetic_algorithm.mutate` (source lines 482-497).  `draws i`
is the per-position `random.random()` of the swap loop and `gdraw` the
genome-level draw of line 495.  The rotation resample at line 496 uses
the stale loop index `i = len(placement) - 1`; on an empty placement that
name was never bound and a `NameError` is raised (`none`). -/
def mutate (draws : ℕ → ℚ) (gdraw : ℚ) (rnd : ℕ → ℕ) (trig : ℚ → ℚ × ℚ)
    (rotations : ℕ) (binW binH rate : ℚ) (g : Genome) : Option Genome :=
  let p := (1 / 100) * rate
  let pl := mutateSwapLoop draws p g.placement
  if gdraw < p then
    match g.placement.length with
    | 0 => none
    | m + 1 =>
      let part := pl.getD m ("", [])
      some { placement := pl,
             rotation := g.rotation.set m
               (random_angle trig rnd rotations part.2 binW binH),
             fitness := none }
  else
    some { placement := pl, rotation := g.rotation, fitness := none }

/-- The helper `contains(gene, shape_id)` of `mate` (source lines 543-547). -/
def gcontains (gene : List GPart) (sid : String) : Bool :=
  gene.any (fun g => g.1 == sid)

/-- The tail-to-head fill loops of `mate` (source lines 549-557): walk the
other parent's entries from the last to the first, appending each whose
id is not yet present, together with its rotation.  The input list is the
other parent's (placement, rotation) pairs already reversed. -/
def mateFill : List GPart → List ℚ → List (GPart × ℚ) → List GPart × List ℚ
  | gene, rot, [] => (gene, rot)
  | gene, rot, pr :: rest =>
    if gcontains gene pr.1.1 then mateFill gene rot rest
    else mateFill (gene ++ [pr.1]) (rot ++ [pr.2]) rest

/-- Embeds `genetic_algorithm.mate` (source lines 535-562); `cutpoint` is
the `random.randint(0, len(male['placement']) - 1)` draw. -/
def mate (cutpoint : ℕ) (male female : Genome) : Genome × Genome :=
  let g1 := mateFill (male.placement.take cutpoint)
    (male.rotation.take cutpoint)
    ((female.placement.zip female.rotation).reverse)
  let g2 := mateFill (female.placement.take cutpoint)
    (female.rotation.take cutpoint)
    ((male.placement.zip male.rotation).reverse)
  ({ placement := g1.1, rotation := g1.2, fitness := none },
   { placement := g2.1, rotation := g2.2, fitness := none })

/-- The selection loop of `random_weighted_individual` (source lines
523-533), with `n = len(pop)` and `weight = 1/n` fixed before the loop. -/
def rwiGo (n : ℕ) (rand : ℚ) :
    List Genome → ℕ → ℚ → ℚ → Option Genome
  | [], _, _, _ => none
  | g :: rest, i, lower, upper =>
    if lower < rand ∧ rand < upper then some g
    else rwiGo n rand rest (i + 1) upper
      (upper + 2 * (1 / (n : ℚ)) * (((n : ℚ) - (i : ℚ)) / (n : ℚ)))

/-- Embeds `genetic_algorithm.random_weighted_individual` (source lines
518-533).  `pop0` is `self.population`; the returned list is the
population as the method leaves it (the local `pop` aliases
`self.population`, so `pop.remove(exclude)` mutates the stored
population).  `none` models a raised exception: `pop.index(exclude)` with
`exclude` absent (`ValueError`), or `1.0 / len(pop)` on an empty
population (`ZeroDivisionError`). -/
def random_weighted_individual (exclude : Option Genome) (rand : ℚ)
    (pop0 : List Genome) : Option (Genome × List Genome) :=
  match exclude with
  | none =>
    match pop0 with
    | [] => none
    | g0 :: _ =>
      some ((rwiGo pop0.length rand pop0 0 0 (1 / (pop0.length : ℚ))).getD g0,
        pop0)
  | some e =>
    if e ∈ pop0 then
      match pop0.erase e with
      | [] => none
      | g0 :: _ =>
        let pop := pop0.erase e
        some ((rwiGo pop.length rand pop 0 0 (1 / (pop.length : ℚ))).getD g0,
          pop)
    else none

/-- The `while len(new_population) < populationSize` loop of `generation`
(source lines 503-513), with the first argument the number of members
still missing.  `mateF k` and `mutF k b` are `mate` and `mutate` with the
iteration's random draws already supplied (`b` distinguishes the two
children), and `selR k` the two selection draws.  The population list is
threaded through the parent selections because
`random_weighted_individual` mutates it in place. -/
def generationLoop (mateF : ℕ → Genome → Genome → Genome × Genome)
    (mutF : ℕ → Bool → Genome → Genome) (selR : ℕ → ℚ × ℚ) :
    ℕ → ℕ → List Genome → List Genome → Option (List Genome)
  | 0, _, _, acc => some acc
  | r + 1, k, cur, acc =>
    match random_weighted_individual none (selR k).1 cur with
    | none => none
    | some mres =>
      match random_weighted_individual (some mres.1) (selR k).2 mres.2 with
      | none => none
      | some fres =>
        let cs := mateF k mres.1 fres.1
        let acc1 := acc ++ [mutF k true cs.1]
        match r with
        | 0 => some acc1
        | r2 + 1 =>
          generationLoop mateF mutF selR r2 (k + 1) fres.2
            (acc1 ++ [mutF k false cs.2])

/-- The comparator of `sorted(self.population, key=lambda a: a['fitness'])`. -/
def fitLe (a b : Genome) : Bool := decide (fitKey a ≤ fitKey b)

/-- Embeds `genetic_algorithm.generation` (source lines 499-516): sort by
fitness ascending (Python's `sorted` is a stable mergesort), seed the new
population with the best genome unchanged, then fill it by selection,
crossover and mutation.  `none` models the `IndexError` on an empty
population. -/
def generation (mateF : ℕ → Genome → Genome → Genome × Genome)
    (mutF : ℕ → Bool → Genome → Genome) (selR : ℕ → ℚ × ℚ)
    (size : ℕ) (pop : List Genome) : Option (List Genome) :=
  let sortedPop := pop.mergeSort fitLe
  match sortedPop with
  | [] => none
  | e :: _ => generationLoop mateF mutF selR (size - 1) 0 sortedPop [e]

/-- The `Nester` attributes that `run` can read or that its callees can
write: the container, the ingested shapes, and the evaluation state
(`results`, `best`, the GA population); the result entries are abstracted
to their fitness values. -/
structure NesterState where
  container : Option Container
  shapes : Option (List Shape)
  results : List ℚ
  best : Option ℚ
  gaPop : Option (List Genome)
deriving DecidableEq

/-- Embeds `Nester.run` (source lines 110-135).  `offsetF` is
`polygon_offset` (external `pyclipper` offsetting) and `launch` is
`launch_workers`, which mutates the evaluation state and always returns
`None` — hence the second component is always `none`; the claims under
study concern the two abort guards. -/
def run (offsetF : List Pt → List Pt)
    (launch : List (String × Shape) → NesterState → NesterState)
    (st : NesterState) : NesterState × Option Unit :=
  match st.container with
  | none => (st, none)
  | some _ =>
    match st.shapes with
    | none => (st, none)
    | some [] => (st, none)
    | some (s0 :: srest) =>
      let faces := ((s0 :: srest).enum).map
        (fun is => (toString is.1, { is.2 with points := offsetF is.2.points }))
      let faces2 := faces.mergeSort (fun a b => decide (b.2.area ≤ a.2.area))
      (launch faces2 st, none)

/-! Concrete fixtures used by the witnesses and counterexamples below. -/

/-- A counter-clockwise unit square (positive shoelace area). -/
def sqPts : List Pt := [Pt.mk 0 0, Pt.mk 1 0, Pt.mk 1 1, Pt.mk 0 1]

/-- A counter-clockwise 10-by-10 square (signed area +100). -/
def ccwSquare : List Pt := [Pt.mk 0 0, Pt.mk 10 0, Pt.mk 10 10, Pt.mk 0 10]

/-- A counter-clockwise triangle (signed area +8). -/
def ccwTri : List Pt := [Pt.mk 0 0, Pt.mk 4 0, Pt.mk 0 4]

/-- A clipper behaviour for already-simple input: `SimplifyPolygon`
returns the polygon itself and `CleanPolygon` leaves it unchanged. -/
def cleanIdentity : List Pt → Option (List Pt) :=
  clean_polygon (fun p => [p]) id polygon_area

/-- A two-summand Minkowski solution: a counter-clockwise triangle of
signed area +2 and a clockwise one of signed area -2. -/
def solW : List (List Pt) :=
  [[Pt.mk 0 0, Pt.mk 2 0, Pt.mk 0 2], [Pt.mk 0 0, Pt.mk 0 2, Pt.mk 2 0]]

/-- Geometry oracles whose Minkowski sum always yields `solW`; the other
helpers are irrelevant to the outer-NFP path under study. -/
def gOrW : GeomOracles :=
  { mink := fun _ _ => solW, pip := fun _ _ => some false, trig := trig90,
    isRect := fun _ _ => false, nfpRect := fun _ _ => none,
    nfpPoly := fun _ _ _ _ => none }

/-- Geometry oracles whose Minkowski sum is empty — pyclipper returns an
empty solution e.g. when the subject polygon has no vertices. -/
def gOrEmpty : GeomOracles :=
  { mink := fun _ _ => [], pip := fun _ _ => some false, trig := trig90,
    isRect := fun _ _ => false, nfpRect := fun _ _ => none,
    nfpPoly := fun _ _ _ _ => none }

/-- An outer pair key at rotation 0. -/
def keyW : NfpKey :=
  { A := "0", B := "1", inside := false, A_rotation := 0, B_rotation := 0 }

def polyAW : NPoly := { points := ccwTri }

def polyBW : NPoly := { points := [Pt.mk 0 0, Pt.mk 1 0, Pt.mk 0 1] }

/-- A small genome fixture pair whose placements are permutations of the
ids "0" and "1". -/
def gMale : Genome :=
  { placement := [("0", sqPts), ("1", ccwTri)], rotation := [0, 90],
    fitness := some 2 }

def gFemale : Genome :=
  { placement := [("1", ccwTri), ("0", sqPts)], rotation := [180, 270],
    fitness := some 1 }

def gThird : Genome :=
  { placement := [("0", sqPts), ("1", ccwTri)], rotation := [90, 0],
    fitness := some 3 }

/-! Shoelace-area facts used throughout. -/

theorem cross2_swap (p q : Pt) : cross2 q p = -cross2 p q := by
  unfold cross2; ring

theorem linkSum_concat (l : List Pt) (y : Pt) :
    linkSum (l ++ [y]) =
      linkSum l + (match l.getLast? with | none => 0 | some z => cross2 z y) := by
  induction l with
  | nil => simp [linkSum]
  | cons a t ih =>
    cases t with
    | nil => simp [linkSum]
    | cons b t' =>
      have key : linkSum ((a :: b :: t') ++ [y]) =
          cross2 a b + linkSum ((b :: t') ++ [y]) := rfl
      rw [key, ih, List.getLast?_cons_cons]
      show _ = linkSum (a :: b :: t') + _
      have hl : linkSum (a :: b :: t') = cross2 a b + linkSum (b :: t') := rfl
      rw [hl, add_assoc]

theorem linkSum_reverse (l : List Pt) : linkSum l.reverse = -linkSum l := by
  induction l with
  | nil => simp [linkSum]
  | cons a t ih =>
    cases t with
    | nil => simp [linkSum]
    | cons b t' =>
      have hrev : (a :: b :: t').reverse = (b :: t').reverse ++ [a] := by
        simp
      rw [hrev, linkSum_concat, ih]
      have hlast : (b :: t').reverse.getLast? = some b := by
        rw [List.getLast?_reverse]; rfl
      rw [hlast]
      have hl : linkSum (a :: b :: t') = cross2 a b + linkSum (b :: t') := rfl
      rw [hl, cross2_swap]
      ring

theorem polygon_area_reverse (l : List Pt) :
    polygon_area l.reverse = -polygon_area l := by
  cases l with
  | nil => simp [polygon_area]
  | cons p rest =>
    have h1 : (p :: rest).reverse.getLast? = some p := by
      rw [List.getLast?_reverse]; rfl
    have h2 : (p :: rest).reverse.head? = (p :: rest).getLast? := by
      rw [List.head?_reverse]
    have h3 : ∃ z, (p :: rest).getLast? = some z := by
      rw [List.getLast?_eq_getLast _ (by simp)]; exact ⟨_, rfl⟩
    obtain ⟨z, hz⟩ := h3
    simp only [polygon_area, h1, h2, hz, List.head?_cons, linkSum_reverse]
    rw [cross2_swap]
    ring

theorem ingest_object_area_nonpos (pts : List Pt) :
    polygon_area (ingest_object pts).points ≤ 0 := by
  unfold ingest_object
  by_cases h : polygon_area pts > 0
  · simp only [h, if_pos]
    rw [polygon_area_reverse]
    linarith
  · simp only [h, if_neg, not_false_iff]
    push_neg at h
    simpa using h

theorem add_objects_aux (clean : List Pt → Option (List Pt)) :
    ∀ (objs : List (List Pt)) (shp0 : List Shape) (tot0 : ℚ)
      (out : List Shape) (tot : ℚ),
      objs.foldl
        (fun acc obj =>
          match acc with
          | none => none
          | some (shp, total) =>
            match clean obj with
            | none => none
            | some pts =>
              let s := ingest_object pts
              some (shp ++ [s], total + s.area))
        (some (shp0, tot0)) = some (out, tot) →
      ∀ s ∈ out, s ∈ shp0 ∨ polygon_area s.points ≤ 0 := by
  intro objs
  induction objs with
  | nil =>
    intro shp0 tot0 out tot h s hs
    simp only [List.foldl_nil, Option.some.injEq, Prod.mk.injEq] at h
    exact Or.inl (h.1 ▸ hs)
  | cons obj rest ih =>
    intro shp0 tot0 out tot h s hs
    rw [List.foldl_cons] at h
    cases hc : clean obj with
    | none =>
      rw [hc] at h
      simp only at h
      exfalso
      have : ∀ (l : List (List Pt)),
          l.foldl
            (fun acc obj =>
              match acc with
              | none => none
              | some (shp, total) =>
                match clean obj with
                | none => none
                | some pts =>
                  let s := ingest_object pts
                  some (shp ++ [s], total + s.area))
            (none : Option (List Shape × ℚ)) = none := by
        intro l
        induction l with
        | nil => rfl
        | cons a t iht => rw [List.foldl_cons]; exact iht
      rw [this rest] at h
      exact Option.noConfusion h
    | some pts =>
      rw [hc] at h
      simp only at h
      have := ih (shp0 ++ [ingest_object pts]) (tot0 + (ingest_object pts).area)
        out tot h s hs
      rcases this with hmem | harea
      · rcases List.mem_append.mp hmem with h1 | h2
        · exact Or.inl h1
        · simp only [List.mem_singleton] at h2
          exact Or.inr (h2 ▸ ingest_object_area_nonpos pts)
      · exact Or.inr harea

/-- C2 counterexample: `add_container` stores the cleaned container
points verbatim, so a counter-clockwise container (here a 10-by-10 square
with signed area +100, cleaned by an identity-behaving clipper) is stored
with positive signed area, contradicting the claim that every stored
polygon is clockwise. -/
theorem c2_container_ccw_counterexample :
    add_container cleanIdentity ccwSquare =
      some { points := ccwSquare, p_id := "-1", width := 10, height := 10 } ∧
    polygon_area ccwSquare = 100 := by
  constructor
  · norm_num [add_container, cleanIdentity, clean_polygon, binBounds, ccwSquare]
  · norm_num [polygon_area, ccwSquare, linkSum, cross2]

/-- C2 (amended): every shape ingested by `add_objects` is stored in
clockwise orientation (non-positive signed shoelace area), but the
container is stored by `add_container` exactly as `clean_polygon`
returned it, without any winding normalisation. -/
theorem c2_winding_amended :
    (∀ (clean : List Pt → Option (List Pt)) (objs : List (List Pt))
       (out : List Shape) (tot : ℚ),
       add_objects clean objs [] = some (out, tot) →
       ∀ s ∈ out, polygon_area s.points ≤ 0) ∧
    (∀ (clean : List Pt → Option (List Pt)) (cont : List Pt) (c : Container),
       add_container clean cont = some c → clean cont = some c.points) := by
  constructor
  · intro clean objs out tot h s hs
    have := add_objects_aux clean objs [] 0 out tot h s hs
    rcases this with hmem | harea
    · exact absurd hmem (List.not_mem_nil s)
    · exact harea
  · intro clean cont c h
    unfold add_container at h
    cases hc : clean cont with
    | none => rw [hc] at h; exact Option.noConfusion h
    | some pts =>
      rw [hc] at h
      cases pts with
      | nil => simp only at h; exact Option.noConfusion h
      | cons p0 prest =>
        simp only [Option.some.injEq] at h
        rw [← h]

/-- C2 witness: the amended theorem applied to a concrete counter-
clockwise triangle, which `add_objects` stores reversed with area -8. -/
theorem c2_winding_witness :
    polygon_area (Shape.mk "0" ccwTri.reverse 8).points ≤ 0 :=
  c2_winding_amended.1 cleanIdentity [ccwTri]
    [Shape.mk "0" ccwTri.reverse 8] 8
    (by norm_num [add_objects, cleanIdentity, clean_polygon, ingest_object,
      polygon_area, ccwTri, linkSum, cross2])
    (Shape.mk "0" ccwTri.reverse 8) (by simp)

/-! The `minkowski_difference` selection fold keeps a minimal-area summand. -/

theorem foldl_pickSmaller_mem (rest : List (List Pt)) : ∀ (p : List Pt),
    rest.foldl pickSmaller p ∈ p :: rest := by
  induction rest with
  | nil => intro p; simp
  | cons h t ih =>
    intro p
    rw [List.foldl_cons]
    rcases List.mem_cons.mp (ih (pickSmaller p h)) with h1 | h2
    · rw [h1]
      by_cases hc : polygon_area h < polygon_area p
      · have hph : pickSmaller p h = h := by unfold pickSmaller; rw [if_pos hc]
        rw [hph]
        exact List.mem_cons_of_mem _ (List.mem_cons_self _ _)
      · have hph : pickSmaller p h = p := by unfold pickSmaller; rw [if_neg hc]
        rw [hph]
        exact List.mem_cons_self _ _
    · exact List.mem_cons_of_mem _ (List.mem_cons_of_mem _ h2)

theorem pickSmaller_le_left (p h : List Pt) :
    polygon_area (pickSmaller p h) ≤ polygon_area p := by
  unfold pickSmaller
  by_cases hc : polygon_area h < polygon_area p
  · rw [if_pos hc]; exact le_of_lt hc
  · rw [if_neg hc]

theorem pickSmaller_le_right (p h : List Pt) :
    polygon_area (pickSmaller p h) ≤ polygon_area h := by
  unfold pickSmaller
  by_cases hc : polygon_area h < polygon_area p
  · rw [if_pos hc]
  · rw [if_neg hc]; exact le_of_not_lt hc

theorem foldl_pickSmaller_min (rest : List (List Pt)) : ∀ (p q : List Pt),
    q ∈ p :: rest →
    polygon_area (rest.foldl pickSmaller p) ≤ polygon_area q := by
  induction rest with
  | nil =>
    intro p q hq
    simp only [List.mem_singleton] at hq
    simp [hq]
  | cons h t ih =>
    intro p q hq
    rw [List.foldl_cons]
    have hself : polygon_area (t.foldl pickSmaller (pickSmaller p h)) ≤
        polygon_area (pickSmaller p h) :=
      ih (pickSmaller p h) (pickSmaller p h) (List.mem_cons_self _ _)
    rcases List.mem_cons.mp hq with h1 | h2
    · subst h1
      exact le_trans hself (pickSmaller_le_left _ h)
    · rcases List.mem_cons.mp h2 with h3 | h4
      · subst h3
        exact le_trans hself (pickSmaller_le_right _ _)
      · exact ih (pickSmaller p h) q (List.mem_cons_of_mem _ h4)

theorem minkowski_difference_eq (mink : List Pt → List Pt → List (List Pt))
    (Apts : List Pt) (b0 : Pt) (brest : List Pt) (s0 : List Pt)
    (srest : List (List Pt))
    (hsol : mink Apts ((b0 :: brest).map negPt) = s0 :: srest) :
    minkowski_difference mink Apts (b0 :: brest) =
      some [(srest.foldl pickSmaller s0).map
        (fun v => Pt.mk (v.x + b0.x) (v.y + b0.y))] := by
  rw [List.map_cons] at hsol
  simp only [minkowski_difference, List.map_cons, hsol]
  cases hp : srest.foldl pickSmaller s0 with
  | nil => simp
  | cons x xs =>
    simp only [Option.some.injEq, List.cons.injEq, and_true]
    apply List.map_congr_left
    intro a _
    simp only [negPt, Pt.mk.injEq]
    constructor <;> ring

theorem process_nfp_outer_eq (g : GeomOracles) (useHoles : Bool)
    (key : NfpKey) (pA pB : NPoly) (hin : key.inside = false) :
    process_nfp g false useHoles (some (key, pA, pB)) =
      match minkowski_difference g.mink
        (rotate_polygon g.trig pA.points key.A_rotation).points
        (rotate_polygon g.trig pB.points key.B_rotation).points with
      | none => .error ()
      | some l => outerPost g.pip false key
          (rotate_polygon g.trig pA.points key.A_rotation).points (some l) := by
  simp only [process_nfp, hin, Bool.false_eq_true, if_false]

/-- C1: for every outer-NFP pair (key with `inside = false`) under the
default `exploreConcave = false`, `process_nfp` derives the NFP via
`minkowski_difference`: it negates the (rotated) B's vertices, takes the
external Minkowski sum of the (rotated) A's points with the negated B,
selects among the summand polygons one whose signed area is algebraically
smallest, translates every vertex of it by B's first vertex, and the
resulting single-element list is what the common outer post-processing
receives. -/
theorem c1_outer_via_minkowski (g : GeomOracles) (useHoles : Bool)
    (key : NfpKey) (pA pB : NPoly)
    (hin : key.inside = false)
    (hB : (rotate_polygon g.trig pB.points key.B_rotation).points ≠ [])
    (hsol : g.mink (rotate_polygon g.trig pA.points key.A_rotation).points
      (((rotate_polygon g.trig pB.points key.B_rotation).points).map negPt)
      ≠ []) :
    ∃ (p b0 : _) (brest : List Pt),
      (rotate_polygon g.trig pB.points key.B_rotation).points = b0 :: brest ∧
      p ∈ g.mink (rotate_polygon g.trig pA.points key.A_rotation).points
        (((rotate_polygon g.trig pB.points key.B_rotation).points).map negPt) ∧
      (∀ q ∈ g.mink (rotate_polygon g.trig pA.points key.A_rotation).points
        (((rotate_polygon g.trig pB.points key.B_rotation).points).map negPt),
        polygon_area p ≤ polygon_area q) ∧
      minkowski_difference g.mink
        (rotate_polygon g.trig pA.points key.A_rotation).points
        (rotate_polygon g.trig pB.points key.B_rotation).points =
        some [p.map (fun v => Pt.mk (v.x + b0.x) (v.y + b0.y))] ∧
      process_nfp g false useHoles (some (key, pA, pB)) =
        outerPost g.pip false key
          (rotate_polygon g.trig pA.points key.A_rotation).points
          (some [p.map (fun v => Pt.mk (v.x + b0.x) (v.y + b0.y))]) := by
  obtain ⟨b0, brest, hBeq⟩ : ∃ b0 brest,
      (rotate_polygon g.trig pB.points key.B_rotation).points = b0 :: brest := by
    cases hBc : (rotate_polygon g.trig pB.points key.B_rotation).points with
    | nil => exact absurd hBc hB
    | cons x xs => exact ⟨x, xs, rfl⟩
  cases hsolEq : g.mink (rotate_polygon g.trig pA.points key.A_rotation).points
      (((rotate_polygon g.trig pB.points key.B_rotation).points).map negPt) with
  | nil => exact absurd hsolEq hsol
  | cons s0 srest =>
    have hmd : minkowski_difference g.mink
        (rotate_polygon g.trig pA.points key.A_rotation).points
        (rotate_polygon g.trig pB.points key.B_rotation).points =
        some [(srest.foldl pickSmaller s0).map
          (fun v => Pt.mk (v.x + b0.x) (v.y + b0.y))] := by
      rw [hBeq]
      exact minkowski_difference_eq g.mink _ b0 brest s0 srest
        (by rw [← hBeq]; exact hsolEq)
    refine ⟨srest.foldl pickSmaller s0, b0, brest, hBeq, ?_, ?_, hmd, ?_⟩
    · exact foldl_pickSmaller_mem srest s0
    · intro q hq
      exact foldl_pickSmaller_min srest s0 q hq
    · rw [process_nfp_outer_eq g useHoles key pA pB hin, hmd]

/-- C1 witness: the theorem applied to concrete oracles whose Minkowski
sum has two summands (signed areas +2 and -2). -/
theorem c1_outer_via_minkowski_witness :
    ∃ (p b0 : _) (brest : List Pt),
      (rotate_polygon gOrW.trig polyBW.points keyW.B_rotation).points =
        b0 :: brest ∧
      p ∈ gOrW.mink (rotate_polygon gOrW.trig polyAW.points keyW.A_rotation).points
        (((rotate_polygon gOrW.trig polyBW.points keyW.B_rotation).points).map negPt) ∧
      (∀ q ∈ gOrW.mink
        (rotate_polygon gOrW.trig polyAW.points keyW.A_rotation).points
        (((rotate_polygon gOrW.trig polyBW.points keyW.B_rotation).points).map negPt),
        polygon_area p ≤ polygon_area q) ∧
      minkowski_difference gOrW.mink
        (rotate_polygon gOrW.trig polyAW.points keyW.A_rotation).points
        (rotate_polygon gOrW.trig polyBW.points keyW.B_rotation).points =
        some [p.map (fun v => Pt.mk (v.x + b0.x) (v.y + b0.y))] ∧
      process_nfp gOrW false false (some (keyW, polyAW, polyBW)) =
        outerPost gOrW.pip false keyW
          (rotate_polygon gOrW.trig polyAW.points keyW.A_rotation).points
          (some [p.map (fun v => Pt.mk (v.x + b0.x) (v.y + b0.y))]) :=
  c1_outer_via_minkowski gOrW false keyW polyAW polyBW rfl
    (by simp [rotate_polygon, polyBW])
    (by simp [gOrW, solW])

theorem outerPost_single (pip : Pt → List Pt → Option Bool) (key : NfpKey)
    (Apts : List Pt) (r : List Pt) :
    outerPost pip false key Apts (some [r]) =
      if |polygon_area r| < |polygon_area Apts| then Except.ok none
      else Except.ok (some (key,
        some [if polygon_area r > 0 then r.reverse else r])) := by
  by_cases hc : |polygon_area r| < |polygon_area Apts|
  · simp [outerPost, hc]
  · simp [outerPost, hc, windingFix, windRest]

/-- C3 (amended): on an outer pair with `exploreConcave = false`, whenever
the external Minkowski sum is non-empty (and B has vertices), `process_nfp`
returns `None` exactly when the absolute area of the single NFP ring is
smaller than the absolute area of the rotated polygon A; in all other
cases it returns the key together with a non-empty list of rings.  (The
claim's further case — a `None` return when the Minkowski-difference
output is absent or empty — does not exist in the code: there the call
raises instead of returning, see the counterexample.) -/
theorem c3_failure_signalling_amended (g : GeomOracles) (useHoles : Bool)
    (key : NfpKey) (pA pB : NPoly)
    (hin : key.inside = false)
    (hB : (rotate_polygon g.trig pB.points key.B_rotation).points ≠ [])
    (hsol : g.mink (rotate_polygon g.trig pA.points key.A_rotation).points
      (((rotate_polygon g.trig pB.points key.B_rotation).points).map negPt)
      ≠ []) :
    ∃ r, minkowski_difference g.mink
        (rotate_polygon g.trig pA.points key.A_rotation).points
        (rotate_polygon g.trig pB.points key.B_rotation).points = some [r] ∧
      (process_nfp g false useHoles (some (key, pA, pB)) = Except.ok none ↔
        |polygon_area r| <
          |polygon_area (rotate_polygon g.trig pA.points key.A_rotation).points|) ∧
      (¬ |polygon_area r| <
          |polygon_area (rotate_polygon g.trig pA.points key.A_rotation).points| →
        ∃ val, process_nfp g false useHoles (some (key, pA, pB)) =
          Except.ok (some (key, some val)) ∧ val ≠ []) := by
  obtain ⟨b0, brest, hBeq⟩ : ∃ b0 brest,
      (rotate_polygon g.trig pB.points key.B_rotation).points = b0 :: brest := by
    cases hBc : (rotate_polygon g.trig pB.points key.B_rotation).points with
    | nil => exact absurd hBc hB
    | cons x xs => exact ⟨x, xs, rfl⟩
  cases hsolEq : g.mink (rotate_polygon g.trig pA.points key.A_rotation).points
      (((rotate_polygon g.trig pB.points key.B_rotation).points).map negPt) with
  | nil => exact absurd hsolEq hsol
  | cons s0 srest =>
    have hmd : minkowski_difference g.mink
        (rotate_polygon g.trig pA.points key.A_rotation).points
        (rotate_polygon g.trig pB.points key.B_rotation).points =
        some [(srest.foldl pickSmaller s0).map
          (fun v => Pt.mk (v.x + b0.x) (v.y + b0.y))] := by
      rw [hBeq]
      exact minkowski_difference_eq g.mink _ b0 brest s0 srest
        (by rw [← hBeq]; exact hsolEq)
    set r := (srest.foldl pickSmaller s0).map
      (fun v => Pt.mk (v.x + b0.x) (v.y + b0.y)) with hr
    have hpn : process_nfp g false useHoles (some (key, pA, pB)) =
        outerPost g.pip false key
          (rotate_polygon g.trig pA.points key.A_rotation).points (some [r]) := by
      rw [process_nfp_outer_eq g useHoles key pA pB hin, hmd]
    refine ⟨r, hmd, ?_, ?_⟩
    · rw [hpn, outerPost_single]
      by_cases hc : |polygon_area r| <
          |polygon_area (rotate_polygon g.trig pA.points key.A_rotation).points|
      · simp [hc]
      · simp only [hc, if_neg, not_false_iff, iff_false]
        intro hcontra
        simp at hcontra
    · intro hc
      rw [hpn, outerPost_single, if_neg hc]
      exact ⟨[if polygon_area r > 0 then r.reverse else r], rfl, by simp⟩

/-- C3 witness: the amended theorem applied to the two-summand oracles;
there the minimal ring has area -2 while A is a triangle of area +8, so
the area sanity check fails and `process_nfp` returns `None`. -/
theorem c3_failure_signalling_witness :
    ∃ r, minkowski_difference gOrW.mink
        (rotate_polygon gOrW.trig polyAW.points keyW.A_rotation).points
        (rotate_polygon gOrW.trig polyBW.points keyW.B_rotation).points =
        some [r] ∧
      (process_nfp gOrW false false (some (keyW, polyAW, polyBW)) =
          Except.ok none ↔
        |polygon_area r| <
          |polygon_area (rotate_polygon gOrW.trig polyAW.points
            keyW.A_rotation).points|) ∧
      (¬ |polygon_area r| <
          |polygon_area (rotate_polygon gOrW.trig polyAW.points
            keyW.A_rotation).points| →
        ∃ val, process_nfp gOrW false false (some (keyW, polyAW, polyBW)) =
          Except.ok (some (keyW, some val)) ∧ val ≠ []) :=
  c3_failure_signalling_amended gOrW false keyW polyAW polyBW rfl
    (by simp [rotate_polygon, polyBW])
    (by simp [gOrW, solW])

/-- C3 counterexample: when the external Minkowski sum returns an empty
solution (pyclipper does so e.g. for a vertex-free subject), the claim
says `process_nfp` returns an empty result (`None`); in fact
`minkowski_difference` raises a `TypeError` (`len(None)`) and the
exception propagates, so no `None` is returned. -/
theorem c3_crash_counterexample :
    minkowski_difference gOrEmpty.mink
      (rotate_polygon gOrEmpty.trig polyAW.points keyW.A_rotation).points
      (rotate_polygon gOrEmpty.trig polyBW.points keyW.B_rotation).points
      = none ∧
    process_nfp gOrEmpty false false (some (keyW, polyAW, polyBW)) =
      Except.error () := by
  constructor
  · rfl
  · rfl

/-! Cache lemmas for the `find_fitness` pruning/refill policy. -/

theorem clookup_cinsert_self {V : Type} (c : List (NfpKey × V)) (k : NfpKey)
    (v : V) : clookup (cinsert c k v) k = some v := by
  induction c with
  | nil => simp [cinsert, clookup]
  | cons kv rest ih =>
    by_cases h : kv.1 = k
    · simp [cinsert, clookup, h]
    · simp [cinsert, clookup, h, ih]

theorem clookup_cinsert_ne {V : Type} (c : List (NfpKey × V)) (k' k : NfpKey)
    (v : V) (hne : k' ≠ k) :
    clookup (cinsert c k' v) k = clookup c k := by
  induction c with
  | nil => simp [cinsert, clookup, hne]
  | cons kv rest ih =>
    by_cases h : kv.1 = k'
    · simp [cinsert, clookup, h, hne]
    · simp only [cinsert, h, if_neg, not_false_iff, clookup]
      by_cases h2 : kv.1 = k
      · simp [h2]
      · simp [h2, ih]

theorem foldl_buildStep_pairs {V : Type} (oldC : List (NfpKey × V))
    (ks : List NfpKey) : ∀ (acc : List NfpKey × List (NfpKey × V)) (k : NfpKey),
    k ∈ (ks.foldl (buildStep oldC) acc).1 →
    k ∈ acc.1 ∨ (k ∈ ks ∧ clookup oldC k = none) := by
  induction ks with
  | nil => intro acc k h; exact Or.inl h
  | cons k0 ks ih =>
    intro acc k h
    rw [List.foldl_cons] at h
    rcases ih (buildStep oldC acc k0) k h with h1 | h2
    · unfold buildStep at h1
      cases ho : clookup oldC k0 with
      | none =>
        rw [ho] at h1
        simp only at h1
        rcases List.mem_append.mp h1 with ha | hb
        · exact Or.inl ha
        · simp only [List.mem_singleton] at hb
          exact Or.inr ⟨hb ▸ List.mem_cons_self _ _, hb ▸ ho⟩
      | some v0 =>
        rw [ho] at h1
        exact Or.inl h1
    · exact Or.inr ⟨List.mem_cons_of_mem _ h2.1, h2.2⟩

theorem foldl_buildStep_cache {V : Type} (oldC : List (NfpKey × V))
    (ks : List NfpKey) : ∀ (acc : List NfpKey × List (NfpKey × V))
    (k : NfpKey) (v : V),
    clookup (ks.foldl (buildStep oldC) acc).2 k = some v →
    clookup acc.2 k = some v ∨ (k ∈ ks ∧ clookup oldC k = some v) := by
  induction ks with
  | nil => intro acc k v h; exact Or.inl h
  | cons k0 ks ih =>
    intro acc k v h
    rw [List.foldl_cons] at h
    rcases ih (buildStep oldC acc k0) k v h with h1 | h2
    · unfold buildStep at h1
      cases ho : clookup oldC k0 with
      | none =>
        rw [ho] at h1
        exact Or.inl h1
      | some v0 =>
        rw [ho] at h1
        simp only at h1
        by_cases hk : k0 = k
        · subst hk
          rw [clookup_cinsert_self] at h1
          exact Or.inr ⟨List.mem_cons_self _ _, by rw [ho, h1]⟩
        · rw [clookup_cinsert_ne _ _ _ _ hk] at h1
          exact Or.inl h1
    · exact Or.inr ⟨List.mem_cons_of_mem _ h2.1, h2.2⟩

theorem foldl_buildStep_keep {V : Type} (oldC : List (NfpKey × V))
    (ks : List NfpKey) : ∀ (acc : List NfpKey × List (NfpKey × V))
    (k : NfpKey) (v : V),
    clookup oldC k = some v →
    (clookup acc.2 k = some v ∨ k ∈ ks) →
    clookup (ks.foldl (buildStep oldC) acc).2 k = some v := by
  induction ks with
  | nil =>
    intro acc k v hold hdisj
    rcases hdisj with h1 | h2
    · exact h1
    · exact absurd h2 (List.not_mem_nil k)
  | cons k0 ks ih =>
    intro acc k v hold hdisj
    rw [List.foldl_cons]
    apply ih (buildStep oldC acc k0) k v hold
    by_cases hk : k0 = k
    · subst hk
      left
      unfold buildStep
      rw [hold]
      exact clookup_cinsert_self _ _ _
    · rcases hdisj with h1 | h2
      · left
        unfold buildStep
        cases ho : clookup oldC k0 with
        | none => exact h1
        | some v0 =>
          simp only
          rw [clookup_cinsert_ne _ _ _ _ hk]
          exact h1
      · rcases List.mem_cons.mp h2 with h3 | h4
        · exact absurd h3.symm hk
        · exact Or.inr h4

theorem buildLoop_pairs {V : Type} (oldC : List (NfpKey × V))
    (parts : List (String × ℚ)) :
    ∀ (placed : List (String × ℚ)) (acc : List NfpKey × List (NfpKey × V))
      (k : NfpKey),
    k ∈ (buildLoop oldC placed acc parts).1 →
    k ∈ acc.1 ∨ (k ∈ refKeys placed parts ∧ clookup oldC k = none) := by
  induction parts with
  | nil => intro placed acc k h; exact Or.inl h
  | cons cur rest ih =>
    intro placed acc k h
    unfold buildLoop at h
    rcases ih (placed ++ [cur]) _ k h with h1 | h2
    · rcases foldl_buildStep_pairs oldC _ acc k h1 with h3 | h4
      · exact Or.inl h3
      · refine Or.inr ⟨?_, h4.2⟩
        unfold refKeys
        exact List.mem_append.mpr (Or.inl h4.1)
    · refine Or.inr ⟨?_, h2.2⟩
      unfold refKeys
      exact List.mem_append.mpr (Or.inr h2.1)

theorem buildLoop_cache {V : Type} (oldC : List (NfpKey × V))
    (parts : List (String × ℚ)) :
    ∀ (placed : List (String × ℚ)) (acc : List NfpKey × List (NfpKey × V))
      (k : NfpKey) (v : V),
    clookup (buildLoop oldC placed acc parts).2 k = some v →
    clookup acc.2 k = some v ∨
      (k ∈ refKeys placed parts ∧ clookup oldC k = some v) := by
  induction parts with
  | nil => intro placed acc k v h; exact Or.inl h
  | cons cur rest ih =>
    intro placed acc k v h
    unfold buildLoop at h
    rcases ih (placed ++ [cur]) _ k v h with h1 | h2
    · rcases foldl_buildStep_cache oldC _ acc k v h1 with h3 | h4
      · exact Or.inl h3
      · refine Or.inr ⟨?_, h4.2⟩
        unfold refKeys
        exact List.mem_append.mpr (Or.inl h4.1)
    · refine Or.inr ⟨?_, h2.2⟩
      unfold refKeys
      exact List.mem_append.mpr (Or.inr h2.1)

theorem buildLoop_keep {V : Type} (oldC : List (NfpKey × V))
    (parts : List (String × ℚ)) :
    ∀ (placed : List (String × ℚ)) (acc : List NfpKey × List (NfpKey × V))
      (k : NfpKey) (v : V),
    clookup oldC k = some v →
    (clookup acc.2 k = some v ∨ k ∈ refKeys placed parts) →
    clookup (buildLoop oldC placed acc parts).2 k = some v := by
  induction parts with
  | nil =>
    intro placed acc k v hold hdisj
    rcases hdisj with h1 | h2
    · exact h1
    · exact absurd h2 (by simp [refKeys])
  | cons cur rest ih =>
    intro placed acc k v hold hdisj
    unfold buildLoop
    apply ih (placed ++ [cur]) _ k v hold
    rcases hdisj with h1 | h2
    · exact Or.inl (foldl_buildStep_keep oldC _ acc k v hold (Or.inl h1))
    · unfold refKeys at h2
      rcases List.mem_append.mp h2 with h3 | h4
      · exact Or.inl (foldl_buildStep_keep oldC _ acc k v hold (Or.inr h3))
      · exact Or.inr h4

theorem foldl_oracle_new {V : Type} (oracle : NfpKey → Option V)
    (pairs : List NfpKey) : ∀ (c : List (NfpKey × V)) (k : NfpKey) (v : V),
    clookup (pairs.foldl
      (fun c k => match oracle k with | some v => cinsert c k v | none => c)
      c) k = some v →
    clookup c k = some v ∨ k ∈ pairs := by
  induction pairs with
  | nil => intro c k v h; exact Or.inl h
  | cons k0 ks ih =>
    intro c k v h
    rw [List.foldl_cons] at h
    rcases ih _ k v h with h1 | h2
    · cases ho : oracle k0 with
      | none =>
        rw [ho] at h1
        exact Or.inl h1
      | some v0 =>
        rw [ho] at h1
        simp only at h1
        by_cases hk : k0 = k
        · exact Or.inr (hk ▸ List.mem_cons_self _ _)
        · rw [clookup_cinsert_ne _ _ _ _ hk] at h1
          exact Or.inl h1
    · exact Or.inr (List.mem_cons_of_mem _ h2)

theorem foldl_oracle_frame {V : Type} (oracle : NfpKey → Option V)
    (pairs : List NfpKey) : ∀ (c : List (NfpKey × V)) (k : NfpKey),
    k ∉ pairs →
    clookup (pairs.foldl
      (fun c k => match oracle k with | some v => cinsert c k v | none => c)
      c) k = clookup c k := by
  induction pairs with
  | nil => intro c k _; rfl
  | cons k0 ks ih =>
    intro c k hk
    rw [List.foldl_cons]
    have hk0 : k0 ≠ k := fun h => hk (h ▸ List.mem_cons_self _ _)
    have hks : k ∉ ks := fun h => hk (List.mem_cons_of_mem _ h)
    rw [ih _ k hks]
    cases ho : oracle k0 with
    | none => rfl
    | some v0 =>
      simp only
      exact clookup_cinsert_ne _ _ _ _ hk0

/-- C4: after `find_fitness` finishes an evaluation, the NFP cache holds
only keys referenced by that genome — the inner key of each part against
the container and the outer key of each ordered pair (i before j in the
placement order) — and every referenced key that was present in the cache
before the call still maps to the very same value (equal keys receive
equal NFP values within a run). -/
theorem c4_cache_policy {V : Type} (oracle : NfpKey → Option V)
    (oldC : List (NfpKey × V)) (parts : List (String × ℚ)) :
    (∀ (k : NfpKey) (v : V),
      clookup (find_fitness_cache oracle oldC parts) k = some v →
      k ∈ refKeys [] parts) ∧
    (∀ k : NfpKey, k ∈ refKeys [] parts → ∀ v : V,
      clookup oldC k = some v →
      clookup (find_fitness_cache oracle oldC parts) k = some v) := by
  constructor
  · intro k v h
    unfold find_fitness_cache at h
    rcases foldl_oracle_new oracle _ _ k v h with h1 | h2
    · rcases buildLoop_cache oldC parts [] ([], []) k v h1 with h3 | h4
      · exact absurd h3 (by simp [clookup])
      · exact h4.1
    · rcases buildLoop_pairs oldC parts [] ([], []) k h2 with h3 | h4
      · exact absurd h3 (List.not_mem_nil k)
      · exact h4.1
  · intro k hk v hold
    unfold find_fitness_cache
    have hnotpair : k ∉ (buildLoop oldC [] ([], []) parts).1 := by
      intro hmem
      rcases buildLoop_pairs oldC parts [] ([], []) k hmem with h3 | h4
      · exact absurd h3 (List.not_mem_nil k)
      · rw [h4.2] at hold
        exact Option.noConfusion hold
    rw [foldl_oracle_frame oracle _ _ k hnotpair]
    exact buildLoop_keep oldC parts [] ([], []) k v hold (Or.inr hk)

/-- C4 witness: a one-part genome whose inner key was already cached with
value 42; after the run the key still maps to 42. -/
theorem c4_cache_policy_witness :
    clookup (find_fitness_cache (fun _ => (none : Option ℕ))
      [(innerCacheKey "0" 0, 42)] [("0", 0)]) (innerCacheKey "0" 0) =
      some 42 :=
  (c4_cache_policy (fun _ => (none : Option ℕ))
    [(innerCacheKey "0" 0, 42)] [("0", 0)]).2
    (innerCacheKey "0" 0) (by simp [refKeys, keysFor]) 42 (by simp [clookup])

/-! Crossover lemmas. -/

theorem gcontains_iff (gene : List GPart) (sid : String) :
    gcontains gene sid = true ↔ sid ∈ gene.map Prod.fst := by
  simp only [gcontains, List.any_eq_true, beq_iff_eq, List.mem_map]

theorem mateFill_mem (l : List (GPart × ℚ)) :
    ∀ (gene : List GPart) (rot : List ℚ) (s : String),
    (s ∈ (mateFill gene rot l).1.map Prod.fst ↔
      s ∈ gene.map Prod.fst ∨ s ∈ l.map (fun pr => pr.1.1)) := by
  induction l with
  | nil => intro gene rot s; simp [mateFill]
  | cons pr rest ih =>
    intro gene rot s
    unfold mateFill
    by_cases hc : gcontains gene pr.1.1 = true
    · rw [if_pos hc, ih]
      simp only [List.map_cons, List.mem_cons]
      constructor
      · rintro (h1 | h2)
        · exact Or.inl h1
        · exact Or.inr (Or.inr h2)
      · rintro (h1 | h2 | h3)
        · exact Or.inl h1
        · exact Or.inl (h2 ▸ (gcontains_iff gene pr.1.1).mp hc)
        · exact Or.inr h3
    · rw [if_neg hc, ih]
      simp only [List.map_append, List.map_cons, List.mem_append,
        List.mem_cons, List.mem_singleton, List.map_nil, List.not_mem_nil,
        or_false]
      tauto

theorem mateFill_nodup (l : List (GPart × ℚ)) :
    ∀ (gene : List GPart) (rot : List ℚ),
    (gene.map Prod.fst).Nodup →
    ((mateFill gene rot l).1.map Prod.fst).Nodup := by
  induction l with
  | nil => intro gene rot h; exact h
  | cons pr rest ih =>
    intro gene rot h
    unfold mateFill
    by_cases hc : gcontains gene pr.1.1 = true
    · rw [if_pos hc]
      exact ih _ _ h
    · rw [if_neg hc]
      apply ih
      have hnm : pr.1.1 ∉ gene.map Prod.fst :=
        fun hm => hc ((gcontains_iff gene pr.1.1).mpr hm)
      rw [List.map_append]
      simp [List.nodup_append, h, hnm]

theorem mateFill_len (l : List (GPart × ℚ)) :
    ∀ (gene : List GPart) (rot : List ℚ),
    rot.length = gene.length →
    (mateFill gene rot l).2.length = (mateFill gene rot l).1.length := by
  induction l with
  | nil => intro gene rot h; exact h
  | cons pr rest ih =>
    intro gene rot h
    unfold mateFill
    by_cases hc : gcontains gene pr.1.1 = true
    · rw [if_pos hc]
      exact ih _ _ h
    · rw [if_neg hc]
      apply ih
      simp [h]

theorem zip_reverse_ids (fp : List GPart) (fr : List ℚ)
    (h : fr.length = fp.length) :
    ((fp.zip fr).reverse).map (fun pr => pr.1.1) =
      (fp.map Prod.fst).reverse := by
  rw [List.map_reverse]
  congr 1
  have h1 : (fp.zip fr).map (fun pr : GPart × ℚ => pr.1.1) =
      ((fp.zip fr).map Prod.fst).map Prod.fst := by
    rw [List.map_map]
    rfl
  rw [h1, List.map_fst_zip fp fr (le_of_eq h.symm)]

/-- C5: for parents whose placements are permutations of the same set of
distinct shape ids (with rotation lists matching their placements in
length), each child produced by `mate` carries every shape id exactly
once — its id multiset is a permutation of the parents' — and each
child's rotation list matches its placement list in length. -/
theorem c5_mate_permutation (cutpoint : ℕ) (male female : Genome)
    (hmn : (male.placement.map Prod.fst).Nodup)
    (hfn : (female.placement.map Prod.fst).Nodup)
    (hset : ∀ s, s ∈ male.placement.map Prod.fst ↔
      s ∈ female.placement.map Prod.fst)
    (hml : male.rotation.length = male.placement.length)
    (hfl : female.rotation.length = female.placement.length) :
    (((mate cutpoint male female).1.placement.map Prod.fst).Perm
      (male.placement.map Prod.fst)) ∧
    (mate cutpoint male female).1.rotation.length =
      (mate cutpoint male female).1.placement.length ∧
    (((mate cutpoint male female).2.placement.map Prod.fst).Perm
      (male.placement.map Prod.fst)) ∧
    (mate cutpoint male female).2.rotation.length =
      (mate cutpoint male female).2.placement.length ∧
    (∀ s ∈ male.placement.map Prod.fst,
      ((mate cutpoint male female).1.placement.map Prod.fst).count s = 1 ∧
      ((mate cutpoint male female).2.placement.map Prod.fst).count s = 1) := by
  have main : ∀ (p1 p2 : List GPart) (r1 r2 : List ℚ),
      (p1.map Prod.fst).Nodup → (p2.map Prod.fst).Nodup →
      (∀ s, s ∈ p1.map Prod.fst ↔ s ∈ p2.map Prod.fst) →
      r1.length = p1.length → r2.length = p2.length →
      (((mateFill (p1.take cutpoint) (r1.take cutpoint)
          ((p2.zip r2).reverse)).1.map Prod.fst).Perm (p1.map Prod.fst)) ∧
      (mateFill (p1.take cutpoint) (r1.take cutpoint)
          ((p2.zip r2).reverse)).2.length =
        (mateFill (p1.take cutpoint) (r1.take cutpoint)
          ((p2.zip r2).reverse)).1.length := by
    intro p1 p2 r1 r2 h1 h2 hs hr1 hr2
    have htaken : ((p1.take cutpoint).map Prod.fst).Nodup := by
      rw [List.map_take]
      exact List.Nodup.sublist (List.take_sublist _ _) h1
    have htake_sub : ∀ s, s ∈ (p1.take cutpoint).map Prod.fst →
        s ∈ p1.map Prod.fst := by
      intro s hsin
      rw [List.map_take] at hsin
      exact List.mem_of_mem_take hsin
    have hzip := zip_reverse_ids p2 r2 hr2
    have hmem : ∀ s, s ∈ (mateFill (p1.take cutpoint) (r1.take cutpoint)
        ((p2.zip r2).reverse)).1.map Prod.fst ↔ s ∈ p1.map Prod.fst := by
      intro s
      rw [mateFill_mem, hzip]
      simp only [List.mem_reverse]
      constructor
      · rintro (h | h)
        · exact htake_sub s h
        · exact (hs s).mpr h
      · intro h
        exact Or.inr ((hs s).mp h)
    have hnd := mateFill_nodup ((p2.zip r2).reverse) (p1.take cutpoint)
      (r1.take cutpoint) htaken
    refine ⟨(List.perm_ext_iff_of_nodup hnd h1).mpr hmem, ?_⟩
    apply mateFill_len
    rw [List.length_take, List.length_take, hr1]
  obtain ⟨hp1, hl1⟩ := main male.placement female.placement
    male.rotation female.rotation hmn hfn hset hml hfl
  obtain ⟨hp2, hl2⟩ := main female.placement male.placement
    female.rotation male.rotation hfn hmn (fun s => (hset s).symm) hfl hml
  have hfm : (female.placement.map Prod.fst).Perm
      (male.placement.map Prod.fst) :=
    (List.perm_ext_iff_of_nodup hfn hmn).mpr (fun s => (hset s).symm)
  refine ⟨hp1, hl1, hp2.trans hfm, hl2, ?_⟩
  intro s hsm
  exact ⟨(hp1.count_eq s).trans (List.count_eq_one_of_mem hmn hsm),
    ((hp2.trans hfm).count_eq s).trans (List.count_eq_one_of_mem hmn hsm)⟩

/-- C5 witness: the theorem applied to the two-part fixtures at cut
point 1. -/
theorem c5_mate_permutation_witness :
    (((mate 1 gMale gFemale).1.placement.map Prod.fst).Perm
      (gMale.placement.map Prod.fst)) ∧
    (mate 1 gMale gFemale).1.rotation.length =
      (mate 1 gMale gFemale).1.placement.length ∧
    (((mate 1 gMale gFemale).2.placement.map Prod.fst).Perm
      (gMale.placement.map Prod.fst)) ∧
    (mate 1 gMale gFemale).2.rotation.length =
      (mate 1 gMale gFemale).2.placement.length ∧
    (∀ s ∈ gMale.placement.map Prod.fst,
      ((mate 1 gMale gFemale).1.placement.map Prod.fst).count s = 1 ∧
      ((mate 1 gMale gFemale).2.placement.map Prod.fst).count s = 1) :=
  c5_mate_permutation 1 gMale gFemale
    (by simp [gMale]) (by simp [gFemale])
    (by intro s; simp [gMale, gFemale]; tauto)
    (by simp [gMale]) (by simp [gFemale])

/-- C7: code-bug demonstration.  With `rotations = 4`, identity shuffle
draws (`randint(0, i) = i`, leaving `angle_list = [0, 90, 180, 270]`) and
a unit square in a 100-by-100 bin, every angle fits; the first sampled
angle is 0 and it fits, yet `random_angle` returns 270 — the element at
the stale index `i = rotations - 1` — instead of the first fitting
angle. -/
theorem c7_random_angle_stale_index :
    random_angle trig90 (fun i => i) 4 sqPts 100 100 = 270 ∧
    (shuffle_array (fun i => i) (angleCandidates 4)).head? = some 0 ∧
    fitsAngle trig90 sqPts 100 100 0 = true := by
  have hcand : angleCandidates 4 = [0, 90, 180, 270] := by
    norm_num [angleCandidates, List.range_succ]
  have hshuf : shuffle_array (fun i => i) ([0, 90, 180, 270] : List ℚ) =
      ([0, 90, 180, 270] : List ℚ) := by
    simp [shuffle_array, shuffleGo, swapIdx]
  have hfit0 : fitsAngle trig90 sqPts 100 100 (0 : ℚ) = true := by
    norm_num [fitsAngle, rotate_polygon, trig90, boundsPts, sqPts,
      max_def, min_def]
  refine ⟨?_, ?_, hfit0⟩
  · simp only [random_angle, hcand, hshuf]
    rw [List.find?_cons_of_pos _ hfit0]
    simp [List.getD]
  · rw [hcand, hshuf]
    rfl

/-! Order-mutation lemmas. -/

theorem swapIdx_adj_perm {α : Type} : ∀ (l : List α) (i : ℕ),
    (swapIdx l i (i + 1)).Perm l := by
  intro l
  induction l with
  | nil => intro i; simp [swapIdx]
  | cons a t ih =>
    intro i
    cases i with
    | zero =>
      cases t with
      | nil => simp [swapIdx]
      | cons b t2 =>
        have : swapIdx (a :: b :: t2) 0 1 = b :: a :: t2 := by
          simp [swapIdx, List.set]
        rw [this]
        exact List.Perm.swap a b t2
    | succ i =>
      cases ht1 : t[i]? with
      | none =>
        have : swapIdx (a :: t) (i + 1) (i + 2) = a :: t := by
          simp [swapIdx, ht1]
        rw [this]
      | some b =>
        cases ht2 : t[i + 1]? with
        | none =>
          have : swapIdx (a :: t) (i + 1) (i + 2) = a :: t := by
            simp [swapIdx, ht1, ht2]
          rw [this]
        | some c =>
          have : swapIdx (a :: t) (i + 1) (i + 2) = a :: swapIdx t i (i + 1) := by
            simp [swapIdx, ht1, ht2, List.set]
          rw [this]
          exact (ih i).cons a

theorem foldlSwap_perm {α : Type} (draws : ℕ → ℚ) (p : ℚ) (idxs : List ℕ) :
    ∀ (cur : List α),
    (idxs.foldl
      (fun cur i =>
        if draws i < p then
          (if i + 1 < cur.length then swapIdx cur i (i + 1) else cur)
        else cur)
      cur).Perm cur := by
  induction idxs with
  | nil => intro cur; rfl
  | cons i0 rest ih =>
    intro cur
    rw [List.foldl_cons]
    refine (ih _).trans ?_
    by_cases h1 : draws i0 < p
    · rw [if_pos h1]
      by_cases h2 : i0 + 1 < cur.length
      · rw [if_pos h2]
        exact swapIdx_adj_perm cur i0
      · rw [if_neg h2]
    · rw [if_neg h1]

theorem mutateSwapLoop_perm {α : Type} (draws : ℕ → ℚ) (p : ℚ)
    (pl : List α) : (mutateSwapLoop draws p pl).Perm pl :=
  foldlSwap_perm draws p (List.range pl.length) pl

theorem foldlSwap_frame {α : Type} (draws : ℕ → ℚ) (p : ℚ)
    (hall : ∀ i, ¬ draws i < p) (idxs : List ℕ) :
    ∀ (cur : List α),
    (idxs.foldl
      (fun cur i =>
        if draws i < p then
          (if i + 1 < cur.length then swapIdx cur i (i + 1) else cur)
        else cur)
      cur) = cur := by
  induction idxs with
  | nil => intro cur; rfl
  | cons i0 rest ih =>
    intro cur
    rw [List.foldl_cons, if_neg (hall i0)]
    exact ih cur

/-- C8: for a genome with a non-empty placement, `mutate` runs the
per-position adjacent-swap loop (a permutation of the placement, and the
identity when no position draw fires), and additionally, exactly when the
genome-level draw fires, resamples one rotation entry — the one at the
stale index `len(placement) - 1` — through `random_angle` on the
corresponding (post-swap) part; every other entry of the genome is
unchanged. -/
theorem c8_mutate_shape (draws : ℕ → ℚ) (gdraw : ℚ) (rnd : ℕ → ℕ)
    (trig : ℚ → ℚ × ℚ) (rotations : ℕ) (binW binH rate : ℚ) (g : Genome)
    (hne : g.placement ≠ [])
    (hlen : g.rotation.length = g.placement.length) :
    ∃ g', mutate draws gdraw rnd trig rotations binW binH rate g = some g' ∧
      g'.placement = mutateSwapLoop draws ((1 / 100) * rate) g.placement ∧
      g'.placement.Perm g.placement ∧
      ((∀ i, ¬ draws i < (1 / 100) * rate) → g'.placement = g.placement) ∧
      (¬ gdraw < (1 / 100) * rate → g'.rotation = g.rotation) ∧
      (gdraw < (1 / 100) * rate →
        (∀ j, j ≠ g.placement.length - 1 → g'.rotation[j]? = g.rotation[j]?) ∧
        g'.rotation[g.placement.length - 1]? =
          some (random_angle trig rnd rotations
            ((mutateSwapLoop draws ((1 / 100) * rate) g.placement).getD
              (g.placement.length - 1) ("", [])).2 binW binH)) := by
  obtain ⟨m, hm⟩ : ∃ m, g.placement.length = m + 1 := by
    cases hp : g.placement with
    | nil => exact absurd hp hne
    | cons x xs => exact ⟨xs.length, by simp [hp]⟩
  by_cases hg : gdraw < (1 / 100) * rate
  · refine ⟨Genome.mk (mutateSwapLoop draws ((1 / 100) * rate) g.placement)
      (g.rotation.set m
        (random_angle trig rnd rotations
          ((mutateSwapLoop draws ((1 / 100) * rate) g.placement).getD m
            ("", [])).2 binW binH))
      none, ?_, rfl, ?_, ?_, ?_, ?_⟩
    · unfold mutate
      rw [if_pos hg]
      simp only [hm]
    · exact mutateSwapLoop_perm draws _ g.placement
    · intro hall
      exact foldlSwap_frame draws _ hall _ g.placement
    · intro hcontra
      exact absurd hg hcontra
    · intro _
      have hmm : g.placement.length - 1 = m := by omega
      constructor
      · intro j hj
        rw [hmm] at hj
        simp only
        rw [List.getElem?_set_ne (fun he => hj he.symm)]
      · simp only [hmm]
        rw [List.getElem?_set_self (by omega : m < g.rotation.length)]
  · refine ⟨Genome.mk (mutateSwapLoop draws ((1 / 100) * rate) g.placement)
      g.rotation none, ?_, rfl, ?_, ?_, ?_, ?_⟩
    · unfold mutate
      rw [if_neg hg]
    · exact mutateSwapLoop_perm draws _ g.placement
    · intro hall
      exact foldlSwap_frame draws _ hall _ g.placement
    · intro _
      rfl
    · intro hcontra
      exact absurd hcontra hg

/-- C8 witness: with draws that never fire the swap mutation and a
genome-level draw that does fire, `mutate` on the two-part fixture
resamples the last rotation entry and leaves everything else intact. -/
theorem c8_mutate_shape_witness :
    ∃ g', mutate (fun _ => 1) 0 (fun i => i) trig90 4 100 100 10 gMale =
        some g' ∧
      g'.placement = mutateSwapLoop (fun _ => 1) ((1 / 100) * 10)
        gMale.placement ∧
      g'.placement.Perm gMale.placement ∧
      ((∀ i, ¬ (fun (_ : ℕ) => (1 : ℚ)) i < (1 / 100) * 10) →
        g'.placement = gMale.placement) ∧
      (¬ (0 : ℚ) < (1 / 100) * 10 → g'.rotation = gMale.rotation) ∧
      ((0 : ℚ) < (1 / 100) * 10 →
        (∀ j, j ≠ gMale.placement.length - 1 →
          g'.rotation[j]? = gMale.rotation[j]?) ∧
        g'.rotation[gMale.placement.length - 1]? =
          some (random_angle trig90 (fun i => i) 4
            ((mutateSwapLoop (fun _ => 1) ((1 / 100) * 10)
              gMale.placement).getD (gMale.placement.length - 1)
              ("", [])).2 100 100)) :=
  c8_mutate_shape (fun _ => 1) 0 (fun i => i) trig90 4 100 100 10 gMale
    (by simp [gMale]) (by simp [gMale])

/-- C9: when the container is missing or the shape list is missing or
empty, `run` aborts and returns `None` leaving the whole `Nester` state
untouched: no genome is evaluated, no result is appended, and the guard
path is total, so no exception escapes. -/
theorem c9_run_empty_abort (offsetF : List Pt → List Pt)
    (launch : List (String × Shape) → NesterState → NesterState)
    (st : NesterState)
    (h : st.container = none ∨ st.shapes = none ∨ st.shapes = some []) :
    run offsetF launch st = (st, none) ∧
    (run offsetF launch st).1.results = st.results ∧
    (run offsetF launch st).1.gaPop = st.gaPop ∧
    (run offsetF launch st).1.best = st.best := by
  have hrun : run offsetF launch st = (st, none) := by
    rcases h with h | h | h
    · unfold run
      rw [h]
    · unfold run
      cases hc : st.container with
      | none => rfl
      | some c => rw [h]
    · unfold run
      cases hc : st.container with
      | none => rfl
      | some c => rw [h]
  exact ⟨hrun, by rw [hrun], by rw [hrun], by rw [hrun]⟩

/-- C9 witness: a state with no container but a shape on file, under a
`launch` that would append a result had it run. -/
theorem c9_run_empty_abort_witness :
    run id (fun _ s => NesterState.mk s.container s.shapes (1 :: s.results)
        s.best s.gaPop)
      (NesterState.mk none (some [Shape.mk "0" sqPts 1]) [] none none) =
      (NesterState.mk none (some [Shape.mk "0" sqPts 1]) [] none none,
        none) :=
  (c9_run_empty_abort id _ _ (Or.inl rfl)).1

theorem rwiGo_mem (n : ℕ) (rand : ℚ) : ∀ (l : List Genome) (i : ℕ)
    (lower upper : ℚ) (g : Genome),
    rwiGo n rand l i lower upper = some g → g ∈ l := by
  intro l
  induction l with
  | nil => intro i lower upper g h; exact Option.noConfusion h
  | cons g0 rest ih =>
    intro i lower upper g h
    unfold rwiGo at h
    by_cases hc : lower < rand ∧ rand < upper
    · rw [if_pos hc] at h
      exact (Option.some.injEq _ _ ▸ h) ▸ List.mem_cons_self _ _
    · rw [if_neg hc] at h
      exact List.mem_cons_of_mem _ (ih _ _ _ g h)

/-- C10: calling `random_weighted_individual` with a non-`None` `exclude`
that is present in the population removes it from the stored population
(the local `pop` aliases `self.population`, so the `remove` is in place):
the method returns the population shrunk by exactly one member — a list
different from the one it was handed — and selects the parent from the
shrunk list.  Parent selection is therefore not side-effect-free. -/
theorem c10_rwi_removes_excluded (e : Genome) (rand : ℚ)
    (pop : List Genome) (hmem : e ∈ pop) (hne : pop.erase e ≠ []) :
    ∃ sel, random_weighted_individual (some e) rand pop =
        some (sel, pop.erase e) ∧
      (pop.erase e).length + 1 = pop.length ∧
      pop.erase e ≠ pop ∧
      sel ∈ pop.erase e := by
  have hlen : (pop.erase e).length = pop.length - 1 :=
    List.length_erase_of_mem hmem
  have hpos : 1 ≤ pop.length := by
    cases pop with
    | nil => exact absurd hmem (List.not_mem_nil e)
    | cons a t => simp
  cases herase : pop.erase e with
  | nil => exact absurd herase hne
  | cons g0 grest =>
    rw [herase] at hlen
    have hres : random_weighted_individual (some e) rand pop =
        some ((rwiGo (g0 :: grest).length rand (g0 :: grest) 0 0
          (1 / ((g0 :: grest).length : ℚ))).getD g0, g0 :: grest) := by
      unfold random_weighted_individual
      simp only [hmem, if_true]
      simp only [herase]
    refine ⟨_, hres, ?_, ?_, ?_⟩
    · simp only [List.length_cons] at hlen ⊢
      omega
    · intro heq
      have h2 : (g0 :: grest).length = pop.length := by rw [heq]
      simp only [List.length_cons] at h2 hlen
      omega
    · cases hgo : rwiGo (g0 :: grest).length rand (g0 :: grest) 0 0
          (1 / ((g0 :: grest).length : ℚ)) with
      | none =>
        simp only [hgo, Option.getD_none]
        exact List.mem_cons_self _ _
      | some gsel =>
        simp only [hgo, Option.getD_some]
        exact rwiGo_mem _ rand _ 0 0 _ gsel hgo

/-- C10 witness: excluding the first of two genomes shrinks the stored
population to the second one alone. -/
theorem c10_rwi_removes_excluded_witness :
    ∃ sel, random_weighted_individual (some gMale) (1 / 2)
        [gMale, gFemale] = some (sel, [gMale, gFemale].erase gMale) ∧
      ([gMale, gFemale].erase gMale).length + 1 = [gMale, gFemale].length ∧
      [gMale, gFemale].erase gMale ≠ [gMale, gFemale] ∧
      sel ∈ [gMale, gFemale].erase gMale :=
  c10_rwi_removes_excluded gMale (1 / 2) [gMale, gFemale]
    (List.mem_cons_self _ _)
    (by simp [List.erase_cons_head])

/-! Generation-loop lemmas. -/

theorem head?_append_left {α : Type} (l l' : List α) (h : l ≠ []) :
    (l ++ l').head? = l.head? := by
  cases l with
  | nil => exact absurd rfl h
  | cons a t => rfl

theorem rwi_none_spec (r : ℚ) (pop : List Genome) (h : pop ≠ []) :
    ∃ g, random_weighted_individual none r pop = some (g, pop) ∧ g ∈ pop := by
  cases pop with
  | nil => exact absurd rfl h
  | cons g0 rest =>
    refine ⟨(rwiGo (g0 :: rest).length r (g0 :: rest) 0 0
      (1 / ((g0 :: rest).length : ℚ))).getD g0, rfl, ?_⟩
    cases hgo : rwiGo (g0 :: rest).length r (g0 :: rest) 0 0
        (1 / ((g0 :: rest).length : ℚ)) with
    | none =>
      simp only [hgo, Option.getD_none]
      exact List.mem_cons_self _ _
    | some gs =>
      simp only [hgo, Option.getD_some]
      exact rwiGo_mem _ r _ 0 0 _ gs hgo

theorem rwi_some_total (e : Genome) (r : ℚ) (pop : List Genome)
    (hmem : e ∈ pop) (hne : pop.erase e ≠ []) :
    ∃ g, random_weighted_individual (some e) r pop =
      some (g, pop.erase e) := by
  cases herase : pop.erase e with
  | nil => exact absurd herase hne
  | cons g0 grest =>
    refine ⟨(rwiGo (g0 :: grest).length r (g0 :: grest) 0 0
      (1 / ((g0 :: grest).length : ℚ))).getD g0, ?_⟩
    unfold random_weighted_individual
    simp only [hmem, if_true]
    simp only [herase]

theorem generationLoop_spec (mateF : ℕ → Genome → Genome → Genome × Genome)
    (mutF : ℕ → Bool → Genome → Genome) (selR : ℕ → ℚ × ℚ) :
    ∀ (r : ℕ) (k : ℕ) (cur acc : List Genome),
    acc ≠ [] →
    (r = 0 ∨ 2 * cur.length ≥ r + 2) →
    ∃ out, generationLoop mateF mutF selR r k cur acc = some out ∧
      out.length = acc.length + r ∧ out.head? = acc.head? := by
  intro r
  induction r using Nat.strong_induction_on with
  | _ r ih =>
    intro k cur acc hacc hr
    cases r with
    | zero => exact ⟨acc, rfl, by simp, rfl⟩
    | succ r1 =>
      rcases hr with h0 | h2
      · exact absurd h0 (Nat.succ_ne_zero r1)
      · have hcur2 : 2 ≤ cur.length := by omega
        have hcurne : cur ≠ [] := by
          intro h
          rw [h] at hcur2
          simp at hcur2
        obtain ⟨male, hmale, hmmem⟩ := rwi_none_spec (selR k).1 cur hcurne
        have hel : (cur.erase male).length = cur.length - 1 :=
          List.length_erase_of_mem hmmem
        have herane : cur.erase male ≠ [] := by
          intro h
          rw [h] at hel
          simp at hel
          omega
        obtain ⟨female, hfemale⟩ :=
          rwi_some_total male (selR k).2 cur hmmem herane
        cases r1 with
        | zero =>
          refine ⟨acc ++ [mutF k true (mateF k male female).1], ?_,
            by simp, head?_append_left _ _ hacc⟩
          unfold generationLoop
          rw [hmale]
          simp only
          rw [hfemale]
        | succ r2 =>
          have hrec := ih r2 (by omega) (k + 1) (cur.erase male)
            ((acc ++ [mutF k true (mateF k male female).1]) ++
              [mutF k false (mateF k male female).2])
            (by simp) (by right; omega)
          obtain ⟨out, hout, hlen, hhead⟩ := hrec
          refine ⟨out, ?_, ?_, ?_⟩
          · unfold generationLoop
            rw [hmale]
            simp only
            rw [hfemale]
            simp only
            exact hout
          · rw [hlen]
            simp
            omega
          · rw [hhead, head?_append_left _ _ (by simp),
              head?_append_left _ _ hacc]

theorem fitLe_trans : ∀ (a b c : Genome), fitLe a b = true →
    fitLe b c = true → fitLe a c = true := by
  intro a b c h1 h2
  simp only [fitLe, decide_eq_true_eq] at *
  exact le_trans h1 h2

theorem fitLe_total : ∀ (a b : Genome), (fitLe a b || fitLe b a) = true := by
  intro a b
  simp only [fitLe, Bool.or_eq_true, decide_eq_true_eq]
  exact le_total _ _

/-- C6: for a population in which every genome carries a fitness value,
`generation` succeeds, its first member is a genome of the previous
population with the lowest fitness (taken over unchanged), and the new
population has exactly `populationSize` members. -/
theorem c6_generation_elite_and_size
    (mateF : ℕ → Genome → Genome → Genome × Genome)
    (mutF : ℕ → Bool → Genome → Genome) (selR : ℕ → ℚ × ℚ)
    (size : ℕ) (pop : List Genome)
    (hne : pop ≠ []) (hsize : pop.length = size)
    (hfit : ∀ g ∈ pop, g.fitness.isSome) :
    ∃ newPop, generation mateF mutF selR size pop = some newPop ∧
      newPop.length = size ∧
      ∃ best, newPop.head? = some best ∧ best ∈ pop ∧
        ∀ g ∈ pop, fitKey best ≤ fitKey g := by
  have hperm : List.Perm (pop.mergeSort fitLe) pop := List.mergeSort_perm pop fitLe
  have hsorted := List.sorted_mergeSort fitLe_trans fitLe_total pop
  have hsizepos : 1 ≤ size := by
    cases pop with
    | nil => exact absurd rfl hne
    | cons a t => simp at hsize; omega
  cases hs : pop.mergeSort fitLe with
  | nil =>
    rw [hs] at hperm
    exact absurd (List.Perm.eq_nil hperm.symm) hne
  | cons e rest =>
    have hgen : generation mateF mutF selR size pop =
        generationLoop mateF mutF selR (size - 1) 0 (e :: rest) [e] := by
      unfold generation
      simp only [hs]
    have hlen : (e :: rest).length = size := by
      rw [← hs, hperm.length_eq, hsize]
    obtain ⟨out, hout, hlen2, hhead⟩ :=
      generationLoop_spec mateF mutF selR (size - 1) 0 (e :: rest) [e]
        (by simp) (by right; omega)
    refine ⟨out, by rw [hgen]; exact hout, ?_, ⟨e, ?_, ?_, ?_⟩⟩
    · rw [hlen2]
      simp
      omega
    · rw [hhead]
      rfl
    · have he : e ∈ pop.mergeSort fitLe := by
        rw [hs]
        exact List.mem_cons_self _ _
      exact (hperm.mem_iff).mp he
    · intro g hg
      have hg2 : g ∈ e :: rest := by
        rw [← hs]
        exact (hperm.mem_iff).mpr hg
      rcases List.mem_cons.mp hg2 with h1 | h2
      · rw [h1]
      · rw [hs] at hsorted
        have := (List.pairwise_cons.mp hsorted).1 g h2
        simpa [fitLe, decide_eq_true_eq] using this

/-- C6 witness: a three-genome population with fitness values 2, 1, 3;
the new population is led by the fitness-1 genome and keeps size 3. -/
theorem c6_generation_elite_and_size_witness :
    ∃ newPop, generation (fun _ a b => (a, b)) (fun _ _ g => g)
        (fun _ => (1 / 2, 1 / 2)) 3 [gMale, gFemale, gThird] =
        some newPop ∧
      newPop.length = 3 ∧
      ∃ best, newPop.head? = some best ∧ best ∈ [gMale, gFemale, gThird] ∧
        ∀ g ∈ [gMale, gFemale, gThird], fitKey best ≤ fitKey g :=
  c6_generation_elite_and_size (fun _ a b => (a, b)) (fun _ _ g => g)
    (fun _ => (1 / 2, 1 / 2)) 3 [gMale, gFemale, gThird]
    (by simp) (by simp)
    (by simp [gMale, gFemale, gThird])
